import Mathlib

/-!
Formal model of the marketing-posts crew glue code:
`src/crew-ai/src/marketing_posts/custom_llm.py` (the message sanitizer
`merge_consecutive_assistant_messages`) and
`src/crew-ai/src/marketing_posts/tools.py` (tool selection `get_tools` and the
error handling of `DuckDuckGoSearchTool._run` / `WebFetchTool._run`).

Python message dicts are modelled by the `Message` structure below: the keys
the code inspects (`role`, `content`) are explicit fields, all other keys are
an opaque `extra` payload that the code only ever copies verbatim.
-/

/-- One element of a multi-part `content` list, as inspected by
`merge_consecutive_assistant_messages` (custom_llm.py lines 33-37 and 46-50):
a plain string part, a dict part whose `type` field equals `"text"` carrying
an optional `text` field (`part.get("text", "")`), or any other value (a dict
with a different or missing `type`, or a non-string non-dict object). This
restricted type represents a text-typed dict only when its `text` value is
absent or a string; a text-typed dict holding a non-string `text` value is
representable only in the general model `ContentPartX` below, whose
Except-valued sanitizer makes the resulting TypeError of line 54 explicit.
The total function over this restricted type is exactly the behavior of the
source on its domain (theorem `mergeE_on_narrow_model`). -/
inductive ContentPart where
  | str (s : String)
  | textDict (t : Option String)
  | other
deriving DecidableEq

/-- Value of the `content` key of a message dict: a plain string, a list of
parts, or anything else — including an absent `content` key, which
`msg.get("content")` reports as `None` and which fails both `isinstance`
checks exactly like any other unexpected type. -/
inductive Content where
  | str (s : String)
  | list (parts : List ContentPart)
  | other
deriving DecidableEq

/-- Test whether a content value is a plain string. -/
def Content.isString : Content → Bool
  | Content.str _ => true
  | _ => false

/-- A chat message dict. `role` is the value of the `"role"` key (`none` when
the key is absent); `content` is the value of the `"content"` key; `extra`
stands opaquely for all remaining key/value pairs, which the code copies
verbatim via `messages[i].copy()` and never inspects. -/
structure Message where
  role : Option String
  content : Content
  extra : Nat
deriving DecidableEq

/-- Role test `msg.get("role") == "assistant"` (custom_llm.py lines 25 and 41). -/
def isAssistant (m : Message) : Bool := m.role == some "assistant"

/-- Text extraction from the elements of a list-shaped `content`
(custom_llm.py lines 33-37, repeated verbatim at lines 46-50): a dict part
with `type == "text"` contributes `part.get("text", "")`; a plain string part
contributes itself; every other part is skipped. -/
def extractFromParts : List ContentPart → List String
  | [] => []
  | ContentPart.textDict t :: rest => t.getD "" :: extractFromParts rest
  | ContentPart.str s :: rest => s :: extractFromParts rest
  | ContentPart.other :: rest => extractFromParts rest

/-- Content extraction for one message (custom_llm.py lines 29-37, repeated
at lines 43-50): a string content is a single part, a list content yields
`extractFromParts`, any other shape contributes nothing. -/
def extractTextParts : Content → List String
  | Content.str s => [s]
  | Content.list parts => extractFromParts parts
  | Content.other => []

/-- Python `sep.join(l)`. -/
def joinSep (sep : String) : List String → String
  | [] => ""
  | [s] => s
  | s :: rest => s ++ sep ++ joinSep sep rest

/-- Line 54 of custom_llm.py: `"\n\n".join(filter(None, content_parts))` —
empty strings (the only falsy strings) are dropped and the remaining parts
are joined with a blank-line separator. -/
def mergeJoin (parts : List String) : String :=
  joinSep "\n\n" (parts.filter (fun s => !s.isEmpty))

/-- Inner `while` loop of custom_llm.py lines 40-51: starting right after the
first assistant message of a run, consume further consecutive assistant
messages, collecting their extracted text parts. Returns the collected parts
together with the number of messages consumed (the final `j - (i + 1)` of the
index scan in the source). -/
def collectAssistantRun : List Message → List String × Nat
  | [] => ([], 0)
  | m :: rest =>
    if isAssistant m then
      let res := collectAssistantRun rest
      (extractTextParts m.content ++ res.1, res.2 + 1)
    else
      ([], 0)

/-- merge_consecutive_assistant_messages, custom_llm.py lines 14-61: scan the
transcript left to right; a non-assistant message is emitted as is (the source
emits `messages[i].copy()`, which is value-equal); an assistant message
absorbs the whole run of consecutive assistant messages that starts at it,
and is emitted once with `content` replaced by the blank-line join of all
non-empty extracted parts of the run, every other attribute kept from the
first message of the run. -/
def merge_consecutive_assistant_messages (messages : List Message) : List Message :=
  match messages with
  | [] => []
  | msg :: rest =>
    if isAssistant msg then
      let res := collectAssistantRun rest
      { msg with content := Content.str (mergeJoin (extractTextParts msg.content ++ res.1)) }
        :: merge_consecutive_assistant_messages (rest.drop res.2)
    else
      msg :: merge_consecutive_assistant_messages rest
termination_by messages.length
decreasing_by
  · simpa using Nat.lt_succ_of_le (Nat.sub_le rest.length _)
  · simp

/-- Head test used to phrase the adjacency invariant. -/
def headIsAssistant : List Message → Bool
  | [] => false
  | m :: _ => isAssistant m

/-- The invariant of spec.md §3: no two adjacent messages of the transcript
both have role `assistant`. -/
def noAdjacentAssistants : List Message → Bool
  | [] => true
  | m :: rest => !(isAssistant m && headIsAssistant rest) && noAdjacentAssistants rest

/-- Test that every assistant message of a transcript carries a plain-string
content. -/
def assistantContentsAreStrings (l : List Message) : Bool :=
  l.all (fun m => !isAssistant m || m.content.isString)

/-- Modelled from the spec's words (spec.md §4.1, compared against the
implementation in the refinement theorem): scan left to right; a
non-assistant message is copied unchanged; an assistant message starts a
maximal run (itself plus the longest stretch of following assistant
messages); the run is replaced by a single message whose attributes are those
of the first message of the run and whose content is the `"\n\n"`-join of all
non-empty extracted parts of the run, in left-to-right order. -/
def specMergeRuns : List Message → List Message
  | [] => []
  | m :: rest =>
    if isAssistant m then
      let run := m :: rest.takeWhile isAssistant
      let joined := joinSep "\n\n"
        (((run.map (fun x => extractTextParts x.content)).flatten).filter (fun s => !s.isEmpty))
      { m with content := Content.str joined } :: specMergeRuns (rest.dropWhile isAssistant)
    else
      m :: specMergeRuns rest
termination_by l => l.length
decreasing_by
  · simpa using Nat.lt_succ_of_le (List.dropWhile_sublist isAssistant (l := rest)).length_le
  · simp

/-- Lengths of the maximal runs of consecutive assistant messages of a
transcript, in left-to-right order. -/
def assistantRunLengths : List Message → List Nat
  | [] => []
  | m :: rest =>
    if isAssistant m then
      ((rest.takeWhile isAssistant).length + 1) :: assistantRunLengths (rest.dropWhile isAssistant)
    else
      assistantRunLengths rest
termination_by l => l.length
decreasing_by
  · simpa using Nat.lt_succ_of_le (List.dropWhile_sublist isAssistant (l := rest)).length_le
  · simp

/-! Heap-level model of the sanitizer, used to settle the frame/no-mutation
claims. The Python heap of message dicts is a growable array of `Message`
values addressed by allocation order; a transcript is a list of addresses.
`messages[i].copy()` allocates a fresh cell, and the single mutation of the
source (`msg["content"] = ...`, line 54) writes to that fresh cell. A read
through a dangling address is the only representable failure. -/

/-- Heap of message dicts: `cells[a]` is the record at address `a`. -/
structure Heap where
  cells : List Message
deriving DecidableEq

/-- Number of allocated cells. -/
def Heap.size (h : Heap) : Nat := h.cells.length

/-- Dereference an address. -/
def Heap.read (h : Heap) (a : Nat) : Option Message := h.cells[a]?

/-- Allocate a fresh cell holding `m`; returns the new heap and the fresh
address. -/
def Heap.alloc (h : Heap) (m : Message) : Heap × Nat :=
  (⟨h.cells ++ [m]⟩, h.cells.length)

/-- Overwrite the cell at address `a`. -/
def Heap.write (h : Heap) (a : Nat) (m : Message) : Heap :=
  ⟨h.cells.set a m⟩

/-- Every address of the transcript points at an allocated cell. -/
def validRefs (h : Heap) (l : List Nat) : Bool :=
  l.all (fun a => a < h.size)

/-- Heap-level inner loop (custom_llm.py lines 40-51): read each following
message through its address while it has role assistant, collecting extracted
parts; returns the parts and the number of messages consumed. -/
def runScanH (h : Heap) : List Nat → Except String (List String × Nat)
  | [] => Except.ok ([], 0)
  | a :: rest =>
    match h.read a with
    | none => Except.error "dangling message reference"
    | some m =>
      if isAssistant m then
        match runScanH h rest with
        | Except.error e => Except.error e
        | Except.ok res => Except.ok (extractTextParts m.content ++ res.1, res.2 + 1)
      else
        Except.ok ([], 0)

/-- Heap-level merge_consecutive_assistant_messages: the input transcript is
a list of addresses into the heap of message dicts. Each outer iteration
allocates a copy of the current message (`msg = messages[i].copy()`, line
22); in the assistant branch the merged content is written to that fresh copy
only (line 54). The result is the final heap together with the addresses of
the emitted messages. -/
def mergeH (h : Heap) (l : List Nat) : Except String (Heap × List Nat) :=
  match l with
  | [] => Except.ok (h, [])
  | a :: rest =>
    match h.read a with
    | none => Except.error "dangling message reference"
    | some m0 =>
      let ha := h.alloc m0
      if isAssistant m0 then
        match runScanH ha.1 rest with
        | Except.error e => Except.error e
        | Except.ok res =>
          let h2 := ha.1.write ha.2
            { m0 with content := Content.str (mergeJoin (extractTextParts m0.content ++ res.1)) }
          match mergeH h2 (rest.drop res.2) with
          | Except.error e => Except.error e
          | Except.ok out => Except.ok (out.1, ha.2 :: out.2)
      else
        match mergeH ha.1 rest with
        | Except.error e => Except.error e
        | Except.ok out => Except.ok (out.1, ha.2 :: out.2)
termination_by l.length
decreasing_by
  · simpa using Nat.lt_succ_of_le (Nat.sub_le rest.length _)
  · simp

/-! Model of `tools.py`. The external tool objects are represented by tags;
an MCP server's tool list is part of the modelled environment, since it is
external input. -/

/-- One tool exposed by the MCP server named by `MCP_SERVER_URL`. -/
structure MCPTool where
  toolName : String
deriving DecidableEq

/-- A tool as returned by `get_tools`: either an MCP-server tool wrapped in
`StringifyingToolWrapper`, or one of the four concrete tool classes of
tools.py. -/
inductive Tool where
  | stringifyingWrapper (t : MCPTool)
  | serperDev
  | scrapeWebsite
  | duckduckgoSearch
  | webFetch
deriving DecidableEq

/-- The environment facts `get_tools` consults: the two environment variables
(`none` when unset) and the tool list the MCP server would expose. -/
structure Env where
  mcp_server_url : Option String
  serper_api_key : Option String
  mcp_tools : List MCPTool
deriving DecidableEq

/-- Python truthiness of an `os.getenv` result, as used by
`if os.getenv(...):` — an unset variable (`None`) and a variable set to the
empty string are both falsy. -/
def envTruthy : Option String → Bool
  | none => false
  | some s => !s.isEmpty

/-- get_tools, tools.py lines 165-179: `MCP_SERVER_URL` truthy selects the
MCP-server tools each wrapped in `StringifyingToolWrapper`
(`_get_tools_mcp`, lines 194-200); otherwise `SERPER_API_KEY` truthy selects
`[SerperDevTool(), ScrapeWebsiteTool()]` (`_get_tools_crewai`, line 183);
otherwise the default `[DuckDuckGoSearchTool(), WebFetchTool()]`
(`_get_tools_duckduckgo`, line 188). -/
def get_tools (env : Env) : List Tool :=
  if envTruthy env.mcp_server_url then
    env.mcp_tools.map Tool.stringifyingWrapper
  else if envTruthy env.serper_api_key then
    [Tool.serperDev, Tool.scrapeWebsite]
  else
    [Tool.duckduckgoSearch, Tool.webFetch]

/-! Model of the two fallback tools' `_run` methods. The underlying network
operation is external I/O, so its outcome is an explicit input of the model:
either the data the Python try-block would go on to process, or the exception
the except-clauses would catch. -/

/-- One result dict of `ddgs.text(...)`: the three keys the formatter reads,
each possibly absent (`result.get(key, default)`). -/
structure SearchResult where
  title : Option String
  href : Option String
  body : Option String
deriving DecidableEq

/-- Outcome of the `DDGS().text(query, ...)` call inside the try-block of
`DuckDuckGoSearchTool._run`: a result list, or an exception `e` carried as
its text `str(e)`. -/
inductive SearchOutcome where
  | ok (results : List SearchResult)
  | raised (msg : String)
deriving DecidableEq

/-- Outcome of the `urllib.request.urlopen` call plus page processing inside
the try-block of `WebFetchTool._run`: the text parts extracted by
`TextExtractor`, or one of the three caught exception kinds —
`urllib.error.HTTPError` (with `e.code` and `e.reason`),
`urllib.error.URLError` (with `str(e.reason)`), or any other exception
(with `str(e)`). -/
inductive FetchOutcome where
  | ok (textParts : List String)
  | httpError (code : Nat) (reason : String)
  | urlError (reason : String)
  | raised (msg : String)
deriving DecidableEq

/-- Python `str.lower()`, written on the character list so that it is
kernel-computable. -/
def strLower (s : String) : String := String.mk (s.data.map Char.toLower)

/-- Test whether `sub` occurs as a contiguous substring of `hay` (Python
`sub in hay`). -/
def charsContain (sub : List Char) : List Char → Bool
  | [] => sub.isEmpty
  | c :: rest => sub.isPrefixOf (c :: rest) || charsContain sub rest

/-- Python `sub in hay` on strings. -/
def strContains (hay sub : String) : Bool := charsContain sub.data hay.data

/-- Rate-limit signal test of tools.py line 84:
`"ratelimit" in error_msg or "rate" in error_msg`, where `error_msg` is the
lowercased exception text. -/
def rateSignal (msg : String) : Bool :=
  strContains (strLower msg) "ratelimit" || strContains (strLower msg) "rate"

/-- Result formatting of tools.py lines 72-78, one numbered block per search
result, counting from `i`. -/
def formatSearchResults (i : Nat) : List SearchResult → List String
  | [] => []
  | r :: rest =>
    (toString i ++ ". **" ++ r.title.getD "No title" ++ "**\n   URL: " ++ r.href.getD "No URL"
        ++ "\n   " ++ r.body.getD "No description" ++ "\n")
      :: formatSearchResults (i + 1) rest

/-- DuckDuckGoSearchTool._run, tools.py lines 56-89, as a function of the
search outcome: an empty result list yields the no-results message; a
non-empty list yields the newline-joined numbered blocks; an exception yields
the rate-limit message when its lowercased text contains a rate signal and
the generic search-failure message otherwise. -/
def duckduckgoSearchRun (outcome : SearchOutcome) : String :=
  match outcome with
  | SearchOutcome.ok results =>
    if results.isEmpty then
      "No results found for the search query. Try rephrasing your search with different keywords."
    else
      joinSep "\n" (formatSearchResults 1 results)
  | SearchOutcome.raised msg =>
    if rateSignal msg then
      "Search rate limit reached. Please wait a moment and try again with a more specific query."
    else
      "Search failed: " ++ msg ++ ". Try rephrasing your query."

/-- WebFetchTool._run, tools.py lines 110-162, as a function of the fetch
outcome: extracted text parts are space-joined, truncated past 8000
characters, with a fallback message when empty; each caught exception kind is
converted to its descriptive string. -/
def webFetchRun (outcome : FetchOutcome) : String :=
  match outcome with
  | FetchOutcome.ok textParts =>
    let content := joinSep " " textParts
    let content2 := if content.length > 8000 then content.take 8000 ++ "... [truncated]" else content
    if content2.isEmpty then "Could not extract content from the page." else content2
  | FetchOutcome.httpError code reason =>
    "HTTP error fetching URL: " ++ toString code ++ " " ++ reason
  | FetchOutcome.urlError reason => "URL error: " ++ reason
  | FetchOutcome.raised msg => "Failed to fetch content: " ++ msg

/-! General content model for the failure analysis of the join at line 54 of
custom_llm.py. In the source, `part.get("text", "")` can surface a non-string
value; `filter(None, ...)` keeps it when it is truthy, and
`"\n\n".join(...)` then raises TypeError. The types below add that case to
the data model, and the sanitizer over them is Except-valued, with the
TypeError as the error case. -/

/-- Python value collected into `content_parts`: a string, or any non-string
value, of which only the truthiness (all that `filter(None, ...)` inspects)
matters. -/
inductive TextVal where
  | str (s : String)
  | nonString (truthy : Bool)
deriving DecidableEq

/-- Python truthiness of a collected value. -/
def TextVal.isTruthy : TextVal → Bool
  | TextVal.str s => !s.isEmpty
  | TextVal.nonString b => b

/-- Test for a string value (`str.join` accepts exactly these). -/
def TextVal.isStr : TextVal → Bool
  | TextVal.str _ => true
  | TextVal.nonString _ => false

/-- Underlying string of a collected value (defaulted; only read under
`isStr`). -/
def TextVal.getStr : TextVal → String
  | TextVal.str s => s
  | TextVal.nonString _ => ""

/-- Like `ContentPart`, but the `text` value of a text-typed dict part is an
arbitrary Python value. -/
inductive ContentPartX where
  | str (s : String)
  | textDict (t : Option TextVal)
  | other
deriving DecidableEq

/-- Like `Content`, over the general parts. -/
inductive ContentX where
  | str (s : String)
  | list (parts : List ContentPartX)
  | other
deriving DecidableEq

/-- Like `Message`, over the general content. -/
structure MessageX where
  role : Option String
  content : ContentX
  extra : Nat
deriving DecidableEq

/-- Role test `msg.get("role") == "assistant"` over the general model. -/
def isAssistantX (m : MessageX) : Bool := m.role == some "assistant"

/-- Extraction (custom_llm.py lines 33-37 and 46-50) over the general parts:
`part.get("text", "")` now surfaces whatever value the dict holds, string or
not. -/
def extractFromPartsX : List ContentPartX → List TextVal
  | [] => []
  | ContentPartX.textDict t :: rest => t.getD (TextVal.str "") :: extractFromPartsX rest
  | ContentPartX.str s :: rest => TextVal.str s :: extractFromPartsX rest
  | ContentPartX.other :: rest => extractFromPartsX rest

/-- Extraction over the general content. -/
def extractTextPartsX : ContentX → List TextVal
  | ContentX.str s => [TextVal.str s]
  | ContentX.list parts => extractFromPartsX parts
  | ContentX.other => []

/-- Line 54 of custom_llm.py, `"\n\n".join(filter(None, content_parts))`,
over arbitrary collected values: `filter(None, ...)` keeps the truthy ones,
and `str.join` raises TypeError unless every kept value is a string. -/
def mergeJoinE (parts : List TextVal) : Except String String :=
  let kept := parts.filter TextVal.isTruthy
  if kept.all TextVal.isStr then
    Except.ok (joinSep "\n\n" (kept.map TextVal.getStr))
  else
    Except.error "TypeError"

/-- Inner loop (custom_llm.py lines 40-51) over the general model. -/
def collectAssistantRunX : List MessageX → List TextVal × Nat
  | [] => ([], 0)
  | m :: rest =>
    if isAssistantX m then
      let res := collectAssistantRunX rest
      (extractTextPartsX m.content ++ res.1, res.2 + 1)
    else
      ([], 0)

/-- merge_consecutive_assistant_messages over the general model, with the
possible TypeError of line 54 made explicit: identical to the restricted
function above except that the join may fail, in which case the exception
propagates out of the call. -/
def merge_consecutive_assistant_messagesE (messages : List MessageX) :
    Except String (List MessageX) :=
  match messages with
  | [] => Except.ok []
  | msg :: rest =>
    if isAssistantX msg then
      let res := collectAssistantRunX rest
      match mergeJoinE (extractTextPartsX msg.content ++ res.1) with
      | Except.error e => Except.error e
      | Except.ok joined =>
        match merge_consecutive_assistant_messagesE (rest.drop res.2) with
        | Except.error e => Except.error e
        | Except.ok out => Except.ok ({ msg with content := ContentX.str joined } :: out)
    else
      match merge_consecutive_assistant_messagesE rest with
      | Except.error e => Except.error e
      | Except.ok out => Except.ok (msg :: out)
termination_by messages.length
decreasing_by
  · simpa using Nat.lt_succ_of_le (Nat.sub_le rest.length _)
  · simp

/-- A part that cannot poison the join: its collected value is a string or a
falsy non-string, which the filter removes before the join. -/
def ContentPartX.joinSafe : ContentPartX → Bool
  | ContentPartX.textDict (some (TextVal.nonString b)) => !b
  | _ => true

/-- Content whose every part is join-safe. -/
def ContentX.joinSafe : ContentX → Bool
  | ContentX.list ps => ps.all ContentPartX.joinSafe
  | _ => true

/-- Message whose content is join-safe. -/
def MessageX.joinSafe (m : MessageX) : Bool := m.content.joinSafe

/-- Lift of the restricted parts into the general model. -/
def ContentPart.toX : ContentPart → ContentPartX
  | ContentPart.str s => ContentPartX.str s
  | ContentPart.textDict t => ContentPartX.textDict (t.map TextVal.str)
  | ContentPart.other => ContentPartX.other

/-- Lift of the restricted content into the general model. -/
def Content.toX : Content → ContentX
  | Content.str s => ContentX.str s
  | Content.list ps => ContentX.list (ps.map ContentPart.toX)
  | Content.other => ContentX.other

/-- Lift of a restricted message into the general model. -/
def Message.toX (m : Message) : MessageX := ⟨m.role, m.content.toX, m.extra⟩

/-! Unfolding equations and basic facts about the sanitizer. -/

/-- Unfolding equation of the sanitizer on the empty transcript. -/
theorem merge_nil_eq : merge_consecutive_assistant_messages [] = [] := by
  rw [merge_consecutive_assistant_messages]

/-- Unfolding equation of the sanitizer on a transcript headed by a
non-assistant message. -/
theorem merge_cons_other (msg : Message) (rest : List Message)
    (h : isAssistant msg = false) :
    merge_consecutive_assistant_messages (msg :: rest)
      = msg :: merge_consecutive_assistant_messages rest := by
  rw [merge_consecutive_assistant_messages]
  simp [h]

/-- Unfolding equation of the sanitizer on a transcript headed by an
assistant message. -/
theorem merge_cons_assistant (msg : Message) (rest : List Message)
    (h : isAssistant msg = true) :
    merge_consecutive_assistant_messages (msg :: rest)
      = { msg with content := Content.str (mergeJoin (extractTextParts msg.content ++ (collectAssistantRun rest).1)) }
        :: merge_consecutive_assistant_messages (rest.drop (collectAssistantRun rest).2) := by
  rw [merge_consecutive_assistant_messages]
  simp [h]

/-- The consumed count of the inner loop is the length of the maximal
assistant prefix. -/
theorem collectAssistantRun_count (l : List Message) :
    (collectAssistantRun l).2 = (l.takeWhile isAssistant).length := by
  induction l with
  | nil => rfl
  | cons m rest ih =>
    by_cases h : isAssistant m
    · simp [collectAssistantRun, h, List.takeWhile_cons, ih]
    · simp [collectAssistantRun, h, List.takeWhile_cons]

/-- The parts collected by the inner loop are the concatenated extractions of
the maximal assistant prefix. -/
theorem collectAssistantRun_parts (l : List Message) :
    (collectAssistantRun l).1
      = ((l.takeWhile isAssistant).map (fun m => extractTextParts m.content)).flatten := by
  induction l with
  | nil => rfl
  | cons m rest ih =>
    by_cases h : isAssistant m
    · simp [collectAssistantRun, h, List.takeWhile_cons, ih]
    · simp [collectAssistantRun, h, List.takeWhile_cons]

/-- Dropping the length of the `takeWhile` prefix is `dropWhile`. -/
theorem drop_length_takeWhile {α : Type} (p : α → Bool) (l : List α) :
    l.drop (l.takeWhile p).length = l.dropWhile p := by
  induction l with
  | nil => rfl
  | cons m rest ih =>
    by_cases h : p m
    · simp [List.takeWhile_cons, List.dropWhile_cons, h, ih]
    · simp [List.takeWhile_cons, List.dropWhile_cons, h]

/-- Induction principle following the recursion structure of the sanitizer. -/
theorem merge_rec (P : List Message → Prop) (h0 : P [])
    (h1 : ∀ m rest, isAssistant m = false → P rest → P (m :: rest))
    (h2 : ∀ m rest, isAssistant m = true →
      P (rest.drop (collectAssistantRun rest).2) → P (m :: rest)) :
    ∀ l, P l := by
  have key : ∀ (n : Nat) (l : List Message), l.length ≤ n → P l := by
    intro n
    induction n with
    | zero =>
      intro l hl
      cases l with
      | nil => exact h0
      | cons m rest => simp at hl
    | succ n ih =>
      intro l hl
      cases l with
      | nil => exact h0
      | cons m rest =>
        simp only [List.length_cons, Nat.add_le_add_iff_right] at hl
        cases hA : isAssistant m with
        | false => exact h1 m rest hA (ih rest hl)
        | true =>
          refine h2 m rest hA (ih _ ?_)
          calc (rest.drop (collectAssistantRun rest).2).length
              ≤ rest.length := by simp
            _ ≤ n := hl
  exact fun l => key l.length l le_rfl

/-- The sanitizer leaves the assistant-ness of the head position unchanged. -/
theorem headIsAssistant_merge (l : List Message) :
    headIsAssistant (merge_consecutive_assistant_messages l) = headIsAssistant l := by
  cases l with
  | nil => rw [merge_nil_eq]
  | cons m rest =>
    cases h : isAssistant m with
    | true =>
      rw [merge_cons_assistant m rest h]
      simp [headIsAssistant, isAssistant] at h ⊢
    | false =>
      rw [merge_cons_other m rest h]
      simp [headIsAssistant]

/-- After consuming a maximal assistant run, the remaining transcript does
not start with an assistant message. -/
theorem headIsAssistant_after_run (rest : List Message) :
    headIsAssistant (rest.drop (collectAssistantRun rest).2) = false := by
  rw [collectAssistantRun_count, drop_length_takeWhile]
  induction rest with
  | nil => rfl
  | cons m rs ih =>
    by_cases h : isAssistant m
    · simpa [List.dropWhile_cons, h] using ih
    · simp [List.dropWhile_cons, h, headIsAssistant]

/-- The sanitizer establishes the adjacency invariant on every input. -/
theorem noAdjacentAssistants_merge (l : List Message) :
    noAdjacentAssistants (merge_consecutive_assistant_messages l) = true := by
  induction l using merge_rec with
  | h0 => rw [merge_nil_eq]; rfl
  | h1 m rest hA ih =>
    rw [merge_cons_other m rest hA]
    simp [noAdjacentAssistants, hA, ih]
  | h2 m rest hA ih =>
    rw [merge_cons_assistant m rest hA]
    simp [noAdjacentAssistants, ih, headIsAssistant_merge, headIsAssistant_after_run]

/-- Every assistant message emitted by the sanitizer carries a plain-string
content. -/
theorem assistantContents_merge (l : List Message) :
    assistantContentsAreStrings (merge_consecutive_assistant_messages l) = true := by
  induction l using merge_rec with
  | h0 => rw [merge_nil_eq]; rfl
  | h1 m rest hA ih =>
    rw [merge_cons_other m rest hA]
    simpa [assistantContentsAreStrings, hA] using ih
  | h2 m rest hA ih =>
    rw [merge_cons_assistant m rest hA]
    simpa [assistantContentsAreStrings, Content.isString] using ih

/-- When the transcript does not start with an assistant message the inner
loop consumes nothing. -/
theorem collectAssistantRun_of_head_false (rest : List Message)
    (h : headIsAssistant rest = false) : collectAssistantRun rest = ([], 0) := by
  cases rest with
  | nil => rfl
  | cons r rs =>
    simp [headIsAssistant] at h
    simp [collectAssistantRun, h]

/-- Joining a single part gives it back: an empty part vanishes into the
empty join, a non-empty one is returned as is. -/
theorem mergeJoin_single (s : String) : mergeJoin [s] = s := by
  by_cases h : s.isEmpty
  · have hs : s = "" := (String.isEmpty_iff s).mp h
    simp [mergeJoin, hs, joinSep, List.filter]
  · simp [mergeJoin, List.filter, h, joinSep]

/-- Rewriting the content of a message to its current value is the identity. -/
theorem set_content_self (m : Message) (c : Content) (h : m.content = c) :
    { m with content := c } = m := by
  cases m
  cases h
  rfl

/-- A transcript with no adjacent assistant pair in which every assistant
message already has plain-string content is a fixed point of the sanitizer. -/
theorem merge_fixed (l : List Message) (hadj : noAdjacentAssistants l = true)
    (hstr : assistantContentsAreStrings l = true) :
    merge_consecutive_assistant_messages l = l := by
  induction l using merge_rec with
  | h0 => rw [merge_nil_eq]
  | h1 m rest hA ih =>
    rw [merge_cons_other m rest hA]
    simp only [noAdjacentAssistants, Bool.and_eq_true] at hadj
    simp only [assistantContentsAreStrings, List.all_cons, Bool.and_eq_true] at hstr
    rw [ih hadj.2 hstr.2]
  | h2 m rest hA ih =>
    simp only [noAdjacentAssistants, Bool.and_eq_true, Bool.not_eq_true',
      Bool.and_eq_false_iff] at hadj
    have hhead : headIsAssistant rest = false := by
      rcases hadj.1 with h' | h'
      · rw [hA] at h'; cases h'
      · exact h'
    simp only [assistantContentsAreStrings, List.all_cons, Bool.and_eq_true] at hstr
    have hcs : m.content.isString = true := by
      have := hstr.1
      rw [hA] at this
      simpa using this
    obtain ⟨s, hs⟩ : ∃ s, m.content = Content.str s := by
      cases hc : m.content with
      | str s => exact ⟨s, rfl⟩
      | list ps => rw [hc] at hcs; cases hcs
      | other => rw [hc] at hcs; cases hcs
    have hc0 : collectAssistantRun rest = ([], 0) := collectAssistantRun_of_head_false rest hhead
    rw [hc0] at ih
    simp only [List.drop_zero] at ih
    rw [merge_cons_assistant m rest hA, hc0]
    simp only [List.drop_zero]
    rw [ih (by simpa using hadj.2) hstr.2, hs]
    rw [show extractTextParts (Content.str s) ++ ([] : List String) = [s] by simp [extractTextParts]]
    rw [mergeJoin_single, set_content_self m (Content.str s) hs]

/-- Unfolding equation of the spec-level transform on the empty transcript. -/
theorem specMergeRuns_nil : specMergeRuns [] = [] := by
  rw [specMergeRuns]

/-- Unfolding equation of the spec-level transform on a non-assistant head. -/
theorem specMergeRuns_cons_other (m : Message) (rest : List Message)
    (h : isAssistant m = false) :
    specMergeRuns (m :: rest) = m :: specMergeRuns rest := by
  rw [specMergeRuns]
  simp [h]

/-- Unfolding equation of the spec-level transform on an assistant head. -/
theorem specMergeRuns_cons_assistant (m : Message) (rest : List Message)
    (h : isAssistant m = true) :
    specMergeRuns (m :: rest)
      = { m with content := Content.str (joinSep "\n\n" ((((m :: rest.takeWhile isAssistant).map (fun x => extractTextParts x.content)).flatten).filter (fun s => !s.isEmpty))) }
        :: specMergeRuns (rest.dropWhile isAssistant) := by
  rw [specMergeRuns]
  simp [h]

/-- The implementation agrees with the spec-level run description
everywhere. -/
theorem merge_eq_specMergeRuns (l : List Message) :
    merge_consecutive_assistant_messages l = specMergeRuns l := by
  induction l using merge_rec with
  | h0 => rw [merge_nil_eq, specMergeRuns_nil]
  | h1 m rest hA ih =>
    rw [merge_cons_other m rest hA, specMergeRuns_cons_other m rest hA, ih]
  | h2 m rest hA ih =>
    rw [merge_cons_assistant m rest hA, specMergeRuns_cons_assistant m rest hA]
    rw [collectAssistantRun_count, drop_length_takeWhile] at ih
    rw [collectAssistantRun_count, drop_length_takeWhile, ih]
    rw [collectAssistantRun_parts]
    simp [mergeJoin]

/-- Unfolding equation of the run-length list on the empty transcript. -/
theorem assistantRunLengths_nil : assistantRunLengths [] = [] := by
  rw [assistantRunLengths]

/-- Unfolding equation of the run-length list on a non-assistant head. -/
theorem assistantRunLengths_cons_other (m : Message) (rest : List Message)
    (h : isAssistant m = false) :
    assistantRunLengths (m :: rest) = assistantRunLengths rest := by
  rw [assistantRunLengths]
  simp [h]

/-- Unfolding equation of the run-length list on an assistant head. -/
theorem assistantRunLengths_cons_assistant (m : Message) (rest : List Message)
    (h : isAssistant m = true) :
    assistantRunLengths (m :: rest)
      = ((rest.takeWhile isAssistant).length + 1)
        :: assistantRunLengths (rest.dropWhile isAssistant) := by
  rw [assistantRunLengths]
  simp [h]

/-- Length accounting: the output length plus the total per-run shrinkage is
the input length. -/
theorem merge_length_add (l : List Message) :
    (merge_consecutive_assistant_messages l).length
      + ((assistantRunLengths l).map (fun n => n - 1)).sum = l.length := by
  induction l using merge_rec with
  | h0 => rw [merge_nil_eq, assistantRunLengths_nil]; rfl
  | h1 m rest hA ih =>
    rw [merge_cons_other m rest hA, assistantRunLengths_cons_other m rest hA]
    simp only [List.length_cons]
    omega
  | h2 m rest hA ih =>
    rw [merge_cons_assistant m rest hA, assistantRunLengths_cons_assistant m rest hA]
    rw [collectAssistantRun_count, drop_length_takeWhile] at ih ⊢
    have htw : (rest.takeWhile isAssistant).length ≤ rest.length :=
      (List.takeWhile_sublist isAssistant (l := rest)).length_le
    have hdw : (rest.dropWhile isAssistant).length
        = rest.length - (rest.takeWhile isAssistant).length := by
      rw [← drop_length_takeWhile isAssistant rest]
      exact List.length_drop _ _
    simp only [List.length_cons, List.map_cons, List.sum_cons, Nat.add_sub_cancel]
    omega

/-- When every message is an assistant message, the inner loop consumes the
whole transcript. -/
theorem collectAssistantRun_all (l : List Message) (h : l.all isAssistant = true) :
    (collectAssistantRun l).2 = l.length := by
  induction l with
  | nil => rfl
  | cons m rest ih =>
    simp only [List.all_cons, Bool.and_eq_true] at h
    simp [collectAssistantRun, h.1, ih h.2]

/-! Facts about the heap model. -/

/-- Allocation does not disturb existing cells. -/
theorem Heap.read_alloc_lt (h : Heap) (m : Message) (a : Nat) (ha : a < h.size) :
    (h.alloc m).1.read a = h.read a := by
  simp only [Heap.alloc, Heap.read]
  exact List.getElem?_append_left ha

/-- Allocation grows the heap by one cell. -/
theorem Heap.size_alloc (h : Heap) (m : Message) : (h.alloc m).1.size = h.size + 1 := by
  simp [Heap.alloc, Heap.size]

/-- The fresh address returned by allocation is the old heap size. -/
theorem Heap.snd_alloc (h : Heap) (m : Message) : (h.alloc m).2 = h.size := rfl

/-- Writing one cell does not disturb the others. -/
theorem Heap.read_write_ne (h : Heap) (a b : Nat) (m : Message) (hne : b ≠ a) :
    (h.write b m).read a = h.read a := by
  simp only [Heap.write, Heap.read]
  rw [List.getElem?_set_ne hne]

/-- Writing does not change the heap size. -/
theorem Heap.size_write (h : Heap) (a : Nat) (m : Message) :
    (h.write a m).size = h.size := by
  simp [Heap.write, Heap.size]

/-- A valid address dereferences to some record. -/
theorem Heap.read_of_lt (h : Heap) (a : Nat) (ha : a < h.size) :
    ∃ m, h.read a = some m :=
  ⟨h.cells[a], List.getElem?_eq_getElem ha⟩

/-- Validity only depends on the heap size, which never shrinks. -/
theorem validRefs_of_le (h h2 : Heap) (l : List Nat) (hs : h.size ≤ h2.size)
    (hv : validRefs h l = true) : validRefs h2 l = true := by
  simp only [validRefs, List.all_eq_true, decide_eq_true_eq] at hv ⊢
  exact fun a ha => lt_of_lt_of_le (hv a ha) hs

/-- Dropping entries preserves validity. -/
theorem validRefs_drop (h : Heap) (l : List Nat) (k : Nat)
    (hv : validRefs h l = true) : validRefs h (l.drop k) = true := by
  simp only [validRefs, List.all_eq_true, decide_eq_true_eq] at hv ⊢
  exact fun a ha => hv a (List.drop_subset _ _ ha)

/-- Under valid references the inner heap loop cannot fail, and it never
consumes more messages than remain. -/
theorem runScanH_ok (h : Heap) (l : List Nat) (hv : validRefs h l = true) :
    ∃ res, runScanH h l = Except.ok res ∧ res.2 ≤ l.length := by
  induction l with
  | nil => exact ⟨([], 0), rfl, by simp⟩
  | cons a rest ih =>
    simp only [validRefs, List.all_cons, Bool.and_eq_true, decide_eq_true_eq] at hv
    obtain ⟨m, hm⟩ := Heap.read_of_lt h a hv.1
    by_cases hA : isAssistant m
    · obtain ⟨res, hres, hlen⟩ := ih (by simpa [validRefs] using hv.2)
      refine ⟨(extractTextParts m.content ++ res.1, res.2 + 1), ?_, ?_⟩
      · simp [runScanH, hm, hA, hres]
      · simpa using hlen
    · refine ⟨([], 0), ?_, by simp⟩
      simp [runScanH, hm, hA]

/-- Unfolding equation of the heap-level sanitizer on the empty transcript. -/
theorem mergeH_nil (h : Heap) : mergeH h [] = Except.ok (h, []) := by
  rw [mergeH]

/-- Unfolding equation of the heap-level sanitizer for a non-assistant head. -/
theorem mergeH_cons_other (h : Heap) (a : Nat) (rest : List Nat) (m0 : Message)
    (hm : h.read a = some m0) (hA : isAssistant m0 = false)
    (h3 : Heap) (out : List Nat)
    (hrec : mergeH (h.alloc m0).1 rest = Except.ok (h3, out)) :
    mergeH h (a :: rest) = Except.ok (h3, (h.alloc m0).2 :: out) := by
  rw [mergeH]
  simp [hm, hA, hrec]

/-- Unfolding equation of the heap-level sanitizer for an assistant head. -/
theorem mergeH_cons_assistant (h : Heap) (a : Nat) (rest : List Nat) (m0 : Message)
    (hm : h.read a = some m0) (hA : isAssistant m0 = true)
    (res : List String × Nat) (hres : runScanH (h.alloc m0).1 rest = Except.ok res)
    (h3 : Heap) (out : List Nat)
    (hrec : mergeH ((h.alloc m0).1.write (h.alloc m0).2 { m0 with content := Content.str (mergeJoin (extractTextParts m0.content ++ res.1)) }) (rest.drop res.2) = Except.ok (h3, out)) :
    mergeH h (a :: rest) = Except.ok (h3, (h.alloc m0).2 :: out) := by
  rw [mergeH]
  simp [hm, hA, hres, hrec]

/-- Main heap invariant of the sanitizer: with valid references it succeeds,
the heap only grows, every pre-existing cell — in particular every input
message record — still holds exactly its old value, and every emitted
reference is a freshly allocated copy. -/
theorem mergeH_spec : ∀ (n : Nat) (h : Heap) (l : List Nat), l.length ≤ n →
    validRefs h l = true →
    ∃ h2 out, mergeH h l = Except.ok (h2, out)
      ∧ h.size ≤ h2.size
      ∧ (∀ a, a < h.size → h2.read a = h.read a)
      ∧ (∀ b ∈ out, h.size ≤ b ∧ b < h2.size) := by
  intro n
  induction n with
  | zero =>
    intro h l hl _
    cases l with
    | nil => exact ⟨h, [], mergeH_nil h, le_rfl, fun _ _ => rfl, by simp⟩
    | cons a rest => simp at hl
  | succ n ih =>
    intro h l hl hv
    cases l with
    | nil => exact ⟨h, [], mergeH_nil h, le_rfl, fun _ _ => rfl, by simp⟩
    | cons a rest =>
      simp only [List.length_cons, Nat.add_le_add_iff_right] at hl
      have hva : a < h.size ∧ validRefs h rest = true := by
        simpa [validRefs] using hv
      obtain ⟨m0, hm0⟩ := Heap.read_of_lt h a hva.1
      have hsz1 : (h.alloc m0).1.size = h.size + 1 := Heap.size_alloc h m0
      have hvrest1 : validRefs (h.alloc m0).1 rest = true :=
        validRefs_of_le h _ rest (by omega) hva.2
      by_cases hA : isAssistant m0
      · obtain ⟨res, hres, hreslen⟩ := runScanH_ok (h.alloc m0).1 rest hvrest1
        set mm := { m0 with content := Content.str (mergeJoin (extractTextParts m0.content ++ res.1)) } with hmm
        set h2 := (h.alloc m0).1.write (h.alloc m0).2 mm with hh2
        have hsz2 : h2.size = h.size + 1 := by
          rw [hh2, Heap.size_write, hsz1]
        have hv2 : validRefs h2 (rest.drop res.2) = true :=
          validRefs_drop h2 rest res.2 (validRefs_of_le h h2 rest (by omega) hva.2)
        have hlen2 : (rest.drop res.2).length ≤ n := by
          have := List.length_drop res.2 rest
          omega
        obtain ⟨h3, out, hrec, hsz3, hpres3, hfresh3⟩ := ih h2 (rest.drop res.2) hlen2 hv2
        refine ⟨h3, (h.alloc m0).2 :: out,
          mergeH_cons_assistant h a rest m0 hm0 hA res hres h3 out hrec, by omega, ?_, ?_⟩
        · intro b hb
          rw [hpres3 b (by omega)]
          rw [hh2, Heap.read_write_ne _ _ _ _ (by rw [Heap.snd_alloc]; omega)]
          exact Heap.read_alloc_lt h m0 b hb
        · intro b hb
          rcases List.mem_cons.mp hb with hb | hb
          · subst hb
            rw [Heap.snd_alloc]
            omega
          · have := hfresh3 b hb
            omega
      · have hA' : isAssistant m0 = false := by simpa using hA
        obtain ⟨h3, out, hrec, hsz3, hpres3, hfresh3⟩ :=
          ih (h.alloc m0).1 rest (by omega) hvrest1
        refine ⟨h3, (h.alloc m0).2 :: out,
          mergeH_cons_other h a rest m0 hm0 hA' h3 out hrec, by omega, ?_, ?_⟩
        · intro b hb
          rw [hpres3 b (by omega)]
          exact Heap.read_alloc_lt h m0 b hb
        · intro b hb
          rcases List.mem_cons.mp hb with hb | hb
          · subst hb
            rw [Heap.snd_alloc]
            omega
          · have := hfresh3 b hb
            omega

/-! Claim theorems. -/

/-- C1: for every input transcript, the output of
merge_consecutive_assistant_messages contains no two adjacent messages that
both have role "assistant". -/
theorem c1_output_has_no_adjacent_assistants (l : List Message) :
    noAdjacentAssistants (merge_consecutive_assistant_messages l) = true :=
  noAdjacentAssistants_merge l

/-- C2: for every maximal run of consecutive assistant messages,
merge_consecutive_assistant_messages emits exactly one assistant message
whose content is the "\n\n"-join of all extracted non-empty text parts of
the run in left-to-right order and whose other attributes are those of the
first message of the run; non-assistant messages are copied unchanged. This
is stated as agreement with the run-by-run spec-level transform
`specMergeRuns`. -/
theorem c2_merge_agrees_with_run_spec (l : List Message) :
    merge_consecutive_assistant_messages l = specMergeRuns l :=
  merge_eq_specMergeRuns l

/-- C3 counterexample: a transcript with no two adjacent assistant messages
on which merge_consecutive_assistant_messages does not return its input —
the lone assistant message has list-shaped content, which the sanitizer
rewrites to the joined plain string. -/
theorem c3_counterexample :
    noAdjacentAssistants
        [⟨some "assistant", Content.list [ContentPart.textDict (some "x")], 0⟩] = true
    ∧ merge_consecutive_assistant_messages
        [⟨some "assistant", Content.list [ContentPart.textDict (some "x")], 0⟩]
      ≠ [⟨some "assistant", Content.list [ContentPart.textDict (some "x")], 0⟩] := by
  have hx : merge_consecutive_assistant_messages
      [⟨some "assistant", Content.list [ContentPart.textDict (some "x")], 0⟩]
      = [⟨some "assistant", Content.str "x", 0⟩] := by
    rw [merge_cons_assistant _ _ (by decide)]
    rw [show extractTextParts (Content.list [ContentPart.textDict (some "x")])
        ++ (collectAssistantRun ([] : List Message)).1 = ["x"] from rfl]
    rw [mergeJoin_single]
    rw [show ([] : List Message).drop (collectAssistantRun ([] : List Message)).2
        = [] from rfl]
    rw [merge_nil_eq]
  exact ⟨by decide, by rw [hx]; decide⟩

/-- C3 (amended): for every transcript in which no two adjacent messages both
have role "assistant" AND every assistant message's content is a plain
string, merge_consecutive_assistant_messages returns its input (value
equality). -/
theorem c3_adjacent_free_string_transcript_is_fixed (l : List Message)
    (hadj : noAdjacentAssistants l = true)
    (hstr : assistantContentsAreStrings l = true) :
    merge_consecutive_assistant_messages l = l :=
  merge_fixed l hadj hstr

/-- Witness for the amended C3 at the spec example's shape. -/
theorem c3_witness :
    noAdjacentAssistants
        [⟨some "user", Content.str "hi", 0⟩, ⟨some "assistant", Content.str "a", 1⟩,
          ⟨some "user", Content.str "ok", 2⟩] = true
    ∧ assistantContentsAreStrings
        [⟨some "user", Content.str "hi", 0⟩, ⟨some "assistant", Content.str "a", 1⟩,
          ⟨some "user", Content.str "ok", 2⟩] = true
    ∧ merge_consecutive_assistant_messages
        [⟨some "user", Content.str "hi", 0⟩, ⟨some "assistant", Content.str "a", 1⟩,
          ⟨some "user", Content.str "ok", 2⟩]
      = [⟨some "user", Content.str "hi", 0⟩, ⟨some "assistant", Content.str "a", 1⟩,
          ⟨some "user", Content.str "ok", 2⟩] :=
  ⟨by decide, by decide,
    c3_adjacent_free_string_transcript_is_fixed _ (by decide) (by decide)⟩

/-- C4: the output length equals the input length minus the sum over maximal
assistant runs of (run length − 1); hence output length ≤ input length, the
empty transcript maps to the empty transcript, and a nonempty all-assistant
transcript (a single run of N ≥ 1 messages) collapses to exactly one
message. -/
theorem c4_length_accounting (l : List Message) :
    (merge_consecutive_assistant_messages l).length
        + ((assistantRunLengths l).map (fun n => n - 1)).sum = l.length
    ∧ (merge_consecutive_assistant_messages l).length
        = l.length - ((assistantRunLengths l).map (fun n => n - 1)).sum
    ∧ (merge_consecutive_assistant_messages l).length ≤ l.length
    ∧ merge_consecutive_assistant_messages ([] : List Message) = []
    ∧ (l ≠ [] → l.all isAssistant = true →
        (merge_consecutive_assistant_messages l).length = 1) := by
  have hmain := merge_length_add l
  refine ⟨hmain, by omega, by omega, merge_nil_eq, ?_⟩
  intro hne hall
  cases l with
  | nil => exact absurd rfl hne
  | cons m rest =>
    simp only [List.all_cons, Bool.and_eq_true] at hall
    rw [merge_cons_assistant m rest hall.1]
    rw [collectAssistantRun_all rest hall.2, List.drop_length, merge_nil_eq]
    rfl

/-- Witness for C4 at a concrete two-assistant transcript. -/
theorem c4_witness :
    ([⟨some "assistant", Content.str "a", 0⟩, ⟨some "assistant", Content.str "b", 0⟩]
        : List Message) ≠ []
    ∧ ([⟨some "assistant", Content.str "a", 0⟩, ⟨some "assistant", Content.str "b", 0⟩]
        : List Message).all isAssistant = true
    ∧ (merge_consecutive_assistant_messages
        [⟨some "assistant", Content.str "a", 0⟩,
          ⟨some "assistant", Content.str "b", 0⟩]).length = 1 :=
  ⟨by decide, by decide, (c4_length_accounting _).2.2.2.2 (by decide) (by decide)⟩

/-- C5: merge_consecutive_assistant_messages is idempotent. -/
theorem c5_idempotent (l : List Message) :
    merge_consecutive_assistant_messages (merge_consecutive_assistant_messages l)
      = merge_consecutive_assistant_messages l :=
  merge_fixed _ (noAdjacentAssistants_merge l) (assistantContents_merge l)

/-- C7: the sanitizer does not mutate its input — on the heap model, it
succeeds on any transcript of valid message references, every pre-existing
message record still reads exactly its old value afterwards, and every
emitted reference is a fresh copy (allocated at or above the old heap
bound). -/
theorem c7_no_mutation_of_input (h : Heap) (l : List Nat)
    (hv : validRefs h l = true) :
    ∃ h2 out, mergeH h l = Except.ok (h2, out)
      ∧ (∀ a, a < h.size → h2.read a = h.read a)
      ∧ (∀ b ∈ out, h.size ≤ b) := by
  obtain ⟨h2, out, hok, _, hpres, hfresh⟩ := mergeH_spec l.length h l le_rfl hv
  exact ⟨h2, out, hok, hpres, fun b hb => (hfresh b hb).1⟩

/-- Witness for C7 at a concrete two-message transcript. -/
theorem c7_witness :
    validRefs ⟨[⟨some "user", Content.str "hi", 0⟩,
        ⟨some "assistant", Content.str "a", 1⟩]⟩ [0, 1] = true
    ∧ ∃ h2 out,
        mergeH ⟨[⟨some "user", Content.str "hi", 0⟩,
            ⟨some "assistant", Content.str "a", 1⟩]⟩ [0, 1] = Except.ok (h2, out)
        ∧ (∀ a, a < (Heap.mk [⟨some "user", Content.str "hi", 0⟩,
            ⟨some "assistant", Content.str "a", 1⟩]).size →
            h2.read a = (Heap.mk [⟨some "user", Content.str "hi", 0⟩,
              ⟨some "assistant", Content.str "a", 1⟩]).read a)
        ∧ (∀ b ∈ out, (Heap.mk [⟨some "user", Content.str "hi", 0⟩,
            ⟨some "assistant", Content.str "a", 1⟩]).size ≤ b) :=
  ⟨by decide, c7_no_mutation_of_input _ _ (by decide)⟩

/-- C8: in the output of merge_consecutive_assistant_messages, every message
with role "assistant" has plain-string content, whatever shape its input
content had. -/
theorem c8_assistant_content_always_string (l : List Message) :
    assistantContentsAreStrings (merge_consecutive_assistant_messages l) = true :=
  assistantContents_merge l

/-- C9 counterexample: MCP_SERVER_URL present but set to the empty string —
the claim as stated ("set" implies the MCP branch) predicts the wrapped MCP
tools, while the code's truthiness test falls through to the DuckDuckGo
default pair. -/
theorem c9_counterexample :
    (Env.mk (some "") none [⟨"tavily"⟩]).mcp_server_url.isSome = true
    ∧ get_tools (Env.mk (some "") none [⟨"tavily"⟩])
        ≠ (Env.mk (some "") none [⟨"tavily"⟩]).mcp_tools.map Tool.stringifyingWrapper
    ∧ get_tools (Env.mk (some "") none [⟨"tavily"⟩])
        = [Tool.duckduckgoSearch, Tool.webFetch] := by
  refine ⟨rfl, ?_, ?_⟩ <;> decide

/-- C9 (amended): get_tools selects by environment-variable truthiness (set
to a non-empty string) in priority order — MCP server first, each tool
wrapped to stringify output; then Serper search plus website scrape; then
the no-API-key DuckDuckGo search and web fetch pair. -/
theorem c9_tool_selection_priority (env : Env) :
    (envTruthy env.mcp_server_url = true →
      get_tools env = env.mcp_tools.map Tool.stringifyingWrapper)
    ∧ (envTruthy env.mcp_server_url = false → envTruthy env.serper_api_key = true →
      get_tools env = [Tool.serperDev, Tool.scrapeWebsite])
    ∧ (envTruthy env.mcp_server_url = false → envTruthy env.serper_api_key = false →
      get_tools env = [Tool.duckduckgoSearch, Tool.webFetch]) := by
  refine ⟨?_, ?_, ?_⟩
  · intro h1
    simp [get_tools, h1]
  · intro h1 h2
    simp [get_tools, h1, h2]
  · intro h1 h2
    simp [get_tools, h1, h2]

/-- Witness for the amended C9 at three concrete environments, one per
branch. -/
theorem c9_witness :
    get_tools (Env.mk (some "http://mcp:8811") none [⟨"search"⟩])
        = [Tool.stringifyingWrapper ⟨"search"⟩]
    ∧ get_tools (Env.mk none (some "key") []) = [Tool.serperDev, Tool.scrapeWebsite]
    ∧ get_tools (Env.mk none none []) = [Tool.duckduckgoSearch, Tool.webFetch] :=
  ⟨(c9_tool_selection_priority (Env.mk (some "http://mcp:8811") none [⟨"search"⟩])).1
      (by decide),
    (c9_tool_selection_priority (Env.mk none (some "key") [])).2.1 (by decide) (by decide),
    (c9_tool_selection_priority (Env.mk none none [])).2.2 (by decide) (by decide)⟩

/-- C10: a failure of the underlying search or fetch is converted into a
descriptive string classified by cause — rate-limit signal in the lowercased
error text, HTTP error, URL error, or generic failure — and the `_run`
models are total functions, so no exception reaches the caller. -/
theorem c10_failures_become_descriptive_strings :
    (∀ msg, rateSignal msg = true →
      duckduckgoSearchRun (SearchOutcome.raised msg)
        = "Search rate limit reached. Please wait a moment and try again with a more specific query.")
    ∧ (∀ msg, rateSignal msg = false →
      duckduckgoSearchRun (SearchOutcome.raised msg)
        = "Search failed: " ++ msg ++ ". Try rephrasing your query.")
    ∧ (∀ code reason, webFetchRun (FetchOutcome.httpError code reason)
        = "HTTP error fetching URL: " ++ toString code ++ " " ++ reason)
    ∧ (∀ reason, webFetchRun (FetchOutcome.urlError reason) = "URL error: " ++ reason)
    ∧ (∀ msg, webFetchRun (FetchOutcome.raised msg) = "Failed to fetch content: " ++ msg) := by
  refine ⟨?_, ?_, fun _ _ => rfl, fun _ => rfl, fun _ => rfl⟩
  · intro msg h
    simp [duckduckgoSearchRun, h]
  · intro msg h
    simp [duckduckgoSearchRun, h]

/-- Witness for C10 at a rate-limit exception text and a generic one. -/
theorem c10_witness :
    rateSignal "RateLimit exceeded" = true
    ∧ duckduckgoSearchRun (SearchOutcome.raised "RateLimit exceeded")
        = "Search rate limit reached. Please wait a moment and try again with a more specific query."
    ∧ rateSignal "boom" = false
    ∧ duckduckgoSearchRun (SearchOutcome.raised "boom")
        = "Search failed: " ++ "boom" ++ ". Try rephrasing your query." :=
  ⟨by decide, c10_failures_become_descriptive_strings.1 _ (by decide),
    by decide, c10_failures_become_descriptive_strings.2.1 _ (by decide)⟩

/-! Correspondence between the heap-level and the pure sanitizer: reading the
emitted references back yields exactly the pure transform of the input
messages. -/

/-- Reading past the heap yields nothing. -/
theorem Heap.read_none_of_ge (h : Heap) (a : Nat) (ha : h.size ≤ a) :
    h.read a = none :=
  List.getElem?_eq_none ha

/-- Reading the freshly allocated cell yields the allocated record. -/
theorem Heap.read_alloc_self (h : Heap) (m : Message) :
    (h.alloc m).1.read (h.alloc m).2 = some m := by
  simp [Heap.alloc, Heap.read]

/-- Reading a just-written cell yields the written record. -/
theorem Heap.read_write_self (h : Heap) (a : Nat) (m : Message) (ha : a < h.size) :
    (h.write a m).read a = some m := by
  simp only [Heap.write, Heap.read]
  exact List.getElem?_set_eq_of_lt m ha

/-- A transcript whose reads all succeed consists of valid references. -/
theorem validRefs_of_map_read (h : Heap) (addrs : List Nat) (msgs : List Message)
    (hm : addrs.map h.read = msgs.map some) : validRefs h addrs = true := by
  induction addrs generalizing msgs with
  | nil => rfl
  | cons a rest ih =>
    cases msgs with
    | nil => simp at hm
    | cons m ms =>
      simp only [List.map_cons, List.cons.injEq] at hm
      have ha : a < h.size := by
        by_contra hc
        rw [Heap.read_none_of_ge h a (by omega)] at hm
        cases hm.1
      simpa [validRefs, ha] using ih ms hm.2

/-- Reads through a transcript survive any heap transformation that preserves
the already-allocated cells. -/
theorem map_read_stable (h h2 : Heap) (addrs : List Nat) (msgs : List Message)
    (hm : addrs.map h.read = msgs.map some)
    (hpres : ∀ a, a < h.size → h2.read a = h.read a) :
    addrs.map h2.read = msgs.map some := by
  induction addrs generalizing msgs with
  | nil =>
    cases msgs with
    | nil => rfl
    | cons m ms => simp at hm
  | cons a rest ih =>
    cases msgs with
    | nil => simp at hm
    | cons m ms =>
      simp only [List.map_cons, List.cons.injEq] at hm ⊢
      have ha : a < h.size := by
        by_contra hc
        rw [Heap.read_none_of_ge h a (by omega)] at hm
        cases hm.1
      exact ⟨by rw [hpres a ha, hm.1], ih ms hm.2⟩

/-- The heap-level inner loop computes exactly the pure inner loop on the
messages the transcript references. -/
theorem runScanH_corresponds (h : Heap) : ∀ (addrs : List Nat) (msgs : List Message),
    addrs.map h.read = msgs.map some →
    runScanH h addrs = Except.ok (collectAssistantRun msgs) := by
  intro addrs
  induction addrs with
  | nil =>
    intro msgs hm
    cases msgs with
    | nil => rfl
    | cons m ms => simp at hm
  | cons a rest ih =>
    intro msgs hm
    cases msgs with
    | nil => simp at hm
    | cons m ms =>
      simp only [List.map_cons, List.cons.injEq] at hm
      by_cases hA : isAssistant m
      · simp [runScanH, hm.1, hA, ih ms hm.2, collectAssistantRun]
      · simp [runScanH, hm.1, hA, collectAssistantRun]

/-- Refinement: on any heap transcript, the heap-level sanitizer succeeds and
the records its output references hold are exactly the pure
merge_consecutive_assistant_messages of the records the input references
held. -/
theorem mergeH_corresponds : ∀ (n : Nat) (h : Heap) (addrs : List Nat) (msgs : List Message),
    addrs.length ≤ n →
    addrs.map h.read = msgs.map some →
    ∃ h2 out, mergeH h addrs = Except.ok (h2, out)
      ∧ out.map h2.read = (merge_consecutive_assistant_messages msgs).map some := by
  intro n
  induction n with
  | zero =>
    intro h addrs msgs hl hm
    cases addrs with
    | nil =>
      cases msgs with
      | nil => exact ⟨h, [], mergeH_nil h, by rw [merge_nil_eq]; rfl⟩
      | cons m ms => simp at hm
    | cons a rest => simp at hl
  | succ n ih =>
    intro h addrs msgs hl hm
    cases addrs with
    | nil =>
      cases msgs with
      | nil => exact ⟨h, [], mergeH_nil h, by rw [merge_nil_eq]; rfl⟩
      | cons m ms => simp at hm
    | cons a rest =>
      cases msgs with
      | nil => simp at hm
      | cons m0 ms =>
        simp only [List.length_cons, Nat.add_le_add_iff_right] at hl
        simp only [List.map_cons, List.cons.injEq] at hm
        have ha : a < h.size := by
          by_contra hc
          rw [Heap.read_none_of_ge h a (by omega)] at hm
          cases hm.1
        have hpres1 : ∀ b, b < h.size → (h.alloc m0).1.read b = h.read b :=
          fun b hb => Heap.read_alloc_lt h m0 b hb
        have hm1 : rest.map (h.alloc m0).1.read = ms.map some :=
          map_read_stable h _ rest ms hm.2 hpres1
        by_cases hA : isAssistant m0
        · have hscan : runScanH (h.alloc m0).1 rest
              = Except.ok (collectAssistantRun ms) :=
            runScanH_corresponds (h.alloc m0).1 rest ms hm1
          set mm := { m0 with content := Content.str (mergeJoin (extractTextParts m0.content ++ (collectAssistantRun ms).1)) } with hmm
          set h2 := (h.alloc m0).1.write (h.alloc m0).2 mm with hh2
          have hpres2 : ∀ b, b < h.size → h2.read b = h.read b := by
            intro b hb
            rw [hh2, Heap.read_write_ne _ _ _ _ (by rw [Heap.snd_alloc]; omega)]
            exact hpres1 b hb
          have hm2 : (rest.drop (collectAssistantRun ms).2).map h2.read
              = (ms.drop (collectAssistantRun ms).2).map some := by
            rw [List.map_drop, List.map_drop]
            rw [map_read_stable h h2 rest ms hm.2 hpres2]
          have hlen2 : (rest.drop (collectAssistantRun ms).2).length ≤ n := by
            have := List.length_drop ((collectAssistantRun ms).2) rest
            omega
          obtain ⟨h3, out, hrec, hmap3⟩ := ih h2 _ _ hlen2 hm2
          have hv2 : validRefs h2 (rest.drop (collectAssistantRun ms).2) = true :=
            validRefs_of_map_read h2 _ _ hm2
          obtain ⟨h3', out', hrec', _, hpres3, _⟩ :=
            mergeH_spec (rest.drop (collectAssistantRun ms).2).length h2 _ le_rfl hv2
          rw [hrec] at hrec'
          obtain ⟨rfl, rfl⟩ : h3 = h3' ∧ out = out' := by
            cases hrec'
            exact ⟨rfl, rfl⟩
          refine ⟨h3, (h.alloc m0).2 :: out,
            mergeH_cons_assistant h a rest m0 hm.1 hA _ hscan h3 out hrec, ?_⟩
          rw [merge_cons_assistant m0 ms hA]
          simp only [List.map_cons, List.cons.injEq]
          constructor
          · have hm0lt : (h.alloc m0).2 < h2.size := by
              rw [hh2, Heap.size_write, Heap.size_alloc, Heap.snd_alloc]
              omega
            rw [hpres3 _ hm0lt, hh2,
              Heap.read_write_self _ _ _ (by rw [Heap.snd_alloc, Heap.size_alloc]; omega)]
          · exact hmap3
        · have hA' : isAssistant m0 = false := by simpa using hA
          obtain ⟨h3, out, hrec, hmap3⟩ := ih (h.alloc m0).1 rest ms hl hm1
          have hv1 : validRefs (h.alloc m0).1 rest = true :=
            validRefs_of_map_read _ rest ms hm1
          obtain ⟨h3', out', hrec', _, hpres3, _⟩ :=
            mergeH_spec rest.length (h.alloc m0).1 rest le_rfl hv1
          rw [hrec] at hrec'
          obtain ⟨rfl, rfl⟩ : h3 = h3' ∧ out = out' := by
            cases hrec'
            exact ⟨rfl, rfl⟩
          refine ⟨h3, (h.alloc m0).2 :: out,
            mergeH_cons_other h a rest m0 hm.1 hA' h3 out hrec, ?_⟩
          rw [merge_cons_other m0 ms hA']
          simp only [List.map_cons, List.cons.injEq]
          constructor
          · have hlt : (h.alloc m0).2 < (h.alloc m0).1.size := by
              rw [Heap.size_alloc, Heap.snd_alloc]
              omega
            rw [hpres3 _ hlt, Heap.read_alloc_self]
          · exact hmap3

/-! The Except-valued sanitizer over the general model: unfolding equations,
the failure of the join on truthy non-string text values, and the
never-raises theorem on the join-safe fragment. -/

/-- Unfolding equation of the Except-valued sanitizer on the empty
transcript. -/
theorem mergeE_nil : merge_consecutive_assistant_messagesE [] = Except.ok [] := by
  rw [merge_consecutive_assistant_messagesE]

/-- Unfolding equation of the Except-valued sanitizer on a non-assistant
head, given the recursive result. -/
theorem mergeE_cons_other_ok (msg : MessageX) (rest : List MessageX)
    (out : List MessageX) (h : isAssistantX msg = false)
    (hrec : merge_consecutive_assistant_messagesE rest = Except.ok out) :
    merge_consecutive_assistant_messagesE (msg :: rest) = Except.ok (msg :: out) := by
  rw [merge_consecutive_assistant_messagesE]
  simp [h, hrec]

/-- Unfolding equation of the Except-valued sanitizer on an assistant head
whose run joins successfully, given the recursive result. -/
theorem mergeE_cons_assistant_ok (msg : MessageX) (rest : List MessageX)
    (joined : String) (out : List MessageX) (h : isAssistantX msg = true)
    (hjoin : mergeJoinE (extractTextPartsX msg.content ++ (collectAssistantRunX rest).1)
      = Except.ok joined)
    (hrec : merge_consecutive_assistant_messagesE (rest.drop (collectAssistantRunX rest).2)
      = Except.ok out) :
    merge_consecutive_assistant_messagesE (msg :: rest)
      = Except.ok ({ msg with content := ContentX.str joined } :: out) := by
  rw [merge_consecutive_assistant_messagesE]
  simp [h, hjoin, hrec]

/-- Unfolding equation of the Except-valued sanitizer on an assistant head
whose run join raises: the exception propagates. -/
theorem mergeE_cons_assistant_error (msg : MessageX) (rest : List MessageX)
    (e : String) (h : isAssistantX msg = true)
    (herr : mergeJoinE (extractTextPartsX msg.content ++ (collectAssistantRunX rest).1)
      = Except.error e) :
    merge_consecutive_assistant_messagesE (msg :: rest) = Except.error e := by
  rw [merge_consecutive_assistant_messagesE]
  simp [h, herr]

/-- Induction principle following the recursion structure of the
Except-valued sanitizer. -/
theorem merge_recX (P : List MessageX → Prop) (h0 : P [])
    (h1 : ∀ m rest, isAssistantX m = false → P rest → P (m :: rest))
    (h2 : ∀ m rest, isAssistantX m = true →
      P (rest.drop (collectAssistantRunX rest).2) → P (m :: rest)) :
    ∀ l, P l := by
  have key : ∀ (n : Nat) (l : List MessageX), l.length ≤ n → P l := by
    intro n
    induction n with
    | zero =>
      intro l hl
      cases l with
      | nil => exact h0
      | cons m rest => simp at hl
    | succ n ih =>
      intro l hl
      cases l with
      | nil => exact h0
      | cons m rest =>
        simp only [List.length_cons, Nat.add_le_add_iff_right] at hl
        cases hA : isAssistantX m with
        | false => exact h1 m rest hA (ih rest hl)
        | true =>
          refine h2 m rest hA (ih _ ?_)
          calc (rest.drop (collectAssistantRunX rest).2).length
              ≤ rest.length := by simp
            _ ≤ n := hl
  exact fun l => key l.length l le_rfl

/-- The join succeeds whenever every collected value is a string or falsy. -/
theorem mergeJoinE_ok (parts : List TextVal)
    (h : parts.all (fun v => v.isStr || !v.isTruthy) = true) :
    ∃ s, mergeJoinE parts = Except.ok s := by
  have hall : (parts.filter TextVal.isTruthy).all TextVal.isStr = true := by
    rw [List.all_eq_true] at h ⊢
    intro v hv
    have hmem := List.mem_filter.mp hv
    have hv2 := h v hmem.1
    cases hvs : v.isStr with
    | true => rfl
    | false =>
      rw [hvs] at hv2
      simp only [Bool.false_or] at hv2
      simp [hmem.2] at hv2
  exact ⟨joinSep "\n\n" ((parts.filter TextVal.isTruthy).map TextVal.getStr),
    by simp [mergeJoinE, hall]⟩

/-- Join-safe parts only collect strings or falsy values. -/
theorem extractFromPartsX_safe (ps : List ContentPartX)
    (h : ps.all ContentPartX.joinSafe = true) :
    (extractFromPartsX ps).all (fun v => v.isStr || !v.isTruthy) = true := by
  induction ps with
  | nil => rfl
  | cons p rest ih =>
    simp only [List.all_cons, Bool.and_eq_true] at h
    cases p with
    | str s =>
      simp only [extractFromPartsX, List.all_cons, Bool.and_eq_true]
      exact ⟨rfl, ih h.2⟩
    | textDict t =>
      cases t with
      | none =>
        simp only [extractFromPartsX, Option.getD, List.all_cons, Bool.and_eq_true]
        exact ⟨rfl, ih h.2⟩
      | some v =>
        cases v with
        | str s =>
          simp only [extractFromPartsX, Option.getD, List.all_cons, Bool.and_eq_true]
          exact ⟨rfl, ih h.2⟩
        | nonString b =>
          have hb : b = false := by simpa [ContentPartX.joinSafe] using h.1
          subst hb
          simp only [extractFromPartsX, Option.getD, List.all_cons, Bool.and_eq_true]
          exact ⟨rfl, ih h.2⟩
    | other =>
      simp only [extractFromPartsX]
      exact ih h.2

/-- Join-safe content only collects strings or falsy values. -/
theorem extractTextPartsX_safe (c : ContentX) (h : c.joinSafe = true) :
    (extractTextPartsX c).all (fun v => v.isStr || !v.isTruthy) = true := by
  cases c with
  | str s => simp [extractTextPartsX, TextVal.isStr]
  | list ps => exact extractFromPartsX_safe ps (by simpa [ContentX.joinSafe] using h)
  | other => rfl

/-- The inner loop over join-safe messages only collects strings or falsy
values. -/
theorem collectAssistantRunX_safe (l : List MessageX)
    (h : l.all MessageX.joinSafe = true) :
    (collectAssistantRunX l).1.all (fun v => v.isStr || !v.isTruthy) = true := by
  induction l with
  | nil => rfl
  | cons m rest ih =>
    simp only [List.all_cons, Bool.and_eq_true] at h
    by_cases hA : isAssistantX m
    · simp only [collectAssistantRunX, hA, if_true]
      rw [List.all_append]
      simp only [Bool.and_eq_true]
      exact ⟨extractTextPartsX_safe m.content h.1, ih h.2⟩
    · simp [collectAssistantRunX, hA]

/-- Dropping entries preserves a universal Bool predicate. -/
theorem all_drop_of_all {α : Type} (p : α → Bool) (l : List α) (k : Nat)
    (h : l.all p = true) : (l.drop k).all p = true := by
  rw [List.all_eq_true] at h ⊢
  exact fun a ha => h a (List.drop_subset _ _ ha)

/-- C6 counterexample: on the message record
`{"role": "assistant", "content": [{"type": "text", "text": 123}]}` the
source raises TypeError at line 54 — the truthy non-string text value
survives `filter(None, ...)` and poisons `"\n\n".join(...)` — so
merge_consecutive_assistant_messages does raise on a transcript of message
records, refuting the claim as stated. -/
theorem c6_counterexample :
    merge_consecutive_assistant_messagesE
        [⟨some "assistant", ContentX.list [ContentPartX.textDict (some (TextVal.nonString true))], 0⟩]
      = Except.error "TypeError" :=
  mergeE_cons_assistant_error _ [] "TypeError" (by decide) rfl

/-- C6 (amended): unexpected content shapes contribute no text instead of
causing a failure — non-string non-list content extracts nothing, a non-text
list part is dropped wherever it occurs, and a text-typed dict without a
`text` field contributes only an empty string that the falsy filter removes —
and the sanitizer never raises on every transcript of message records in
which no text-typed dict part carries a truthy non-string `text` value (on
such a part the join of line 54 raises TypeError, per the counterexample). -/
theorem c6_unexpected_shapes_contribute_nothing :
    extractTextPartsX ContentX.other = []
    ∧ (∀ pre post, extractFromPartsX (pre ++ ContentPartX.other :: post)
        = extractFromPartsX (pre ++ post))
    ∧ (∀ pre post,
        (extractFromPartsX (pre ++ ContentPartX.textDict none :: post)).filter TextVal.isTruthy
          = (extractFromPartsX (pre ++ post)).filter TextVal.isTruthy)
    ∧ (∀ l, l.all MessageX.joinSafe = true →
        ∃ out, merge_consecutive_assistant_messagesE l = Except.ok out) := by
  refine ⟨rfl, ?_, ?_, ?_⟩
  · intro pre post
    induction pre with
    | nil => simp [extractFromPartsX]
    | cons p pre ih => cases p <;> simp [extractFromPartsX, ih]
  · intro pre post
    induction pre with
    | nil =>
      have he : TextVal.isTruthy (TextVal.str "") = false := by decide
      simp [extractFromPartsX, List.filter_cons, he]
    | cons p pre ih => cases p <;> simp [extractFromPartsX, List.filter_cons, ih]
  · intro l
    induction l using merge_recX with
    | h0 => exact fun _ => ⟨[], mergeE_nil⟩
    | h1 m rest hA ih =>
      intro h
      simp only [List.all_cons, Bool.and_eq_true] at h
      obtain ⟨out, hout⟩ := ih h.2
      exact ⟨m :: out, mergeE_cons_other_ok m rest out hA hout⟩
    | h2 m rest hA ih =>
      intro h
      simp only [List.all_cons, Bool.and_eq_true] at h
      have hsafe : (extractTextPartsX m.content ++ (collectAssistantRunX rest).1).all
          (fun v => v.isStr || !v.isTruthy) = true := by
        rw [List.all_append]
        simp only [Bool.and_eq_true]
        exact ⟨extractTextPartsX_safe m.content h.1, collectAssistantRunX_safe rest h.2⟩
      obtain ⟨s, hs⟩ := mergeJoinE_ok _ hsafe
      obtain ⟨out, hout⟩ := ih (all_drop_of_all _ rest _ h.2)
      exact ⟨_, mergeE_cons_assistant_ok m rest s out hA hs hout⟩

/-- Witness for the amended C6 at a transcript exercising every tolerated
shape: a text part, a non-text part, a text dict without a `text` field, and
a text dict holding a falsy non-string. -/
theorem c6_witness :
    ([⟨some "assistant", ContentX.list [ContentPartX.textDict (some (TextVal.str "x")),
        ContentPartX.other, ContentPartX.textDict none,
        ContentPartX.textDict (some (TextVal.nonString false))], 0⟩]
      : List MessageX).all MessageX.joinSafe = true
    ∧ ∃ out, merge_consecutive_assistant_messagesE
        [⟨some "assistant", ContentX.list [ContentPartX.textDict (some (TextVal.str "x")),
          ContentPartX.other, ContentPartX.textDict none,
          ContentPartX.textDict (some (TextVal.nonString false))], 0⟩]
        = Except.ok out :=
  ⟨by decide, c6_unexpected_shapes_contribute_nothing.2.2.2 _ (by decide)⟩

/-! Agreement of the two models: on every transcript of the restricted model
— assistant text values all strings or absent — the Except-valued sanitizer
cannot raise and computes exactly the total restricted sanitizer. This is
why the restricted model is an exact description of the source on its
domain. -/

/-- The lift preserves the role test. -/
theorem isAssistantX_toX (m : Message) : isAssistantX m.toX = isAssistant m := rfl

/-- The lift commutes with part extraction. -/
theorem extractFromParts_toX (ps : List ContentPart) :
    extractFromPartsX (ps.map ContentPart.toX) = (extractFromParts ps).map TextVal.str := by
  induction ps with
  | nil => rfl
  | cons p rest ih =>
    cases p with
    | str s => simp [ContentPart.toX, extractFromPartsX, extractFromParts, ih]
    | textDict t =>
      cases t with
      | none => simp [ContentPart.toX, extractFromPartsX, extractFromParts, ih]
      | some u => simp [ContentPart.toX, extractFromPartsX, extractFromParts, ih]
    | other => simp [ContentPart.toX, extractFromPartsX, extractFromParts, ih]

/-- The lift commutes with content extraction. -/
theorem extractTextParts_toX (c : Content) :
    extractTextPartsX c.toX = (extractTextParts c).map TextVal.str := by
  cases c with
  | str s => rfl
  | list ps => exact extractFromParts_toX ps
  | other => rfl

/-- The lift commutes with the inner loop. -/
theorem collectAssistantRun_toX (l : List Message) :
    collectAssistantRunX (l.map Message.toX)
      = ((collectAssistantRun l).1.map TextVal.str, (collectAssistantRun l).2) := by
  induction l with
  | nil => rfl
  | cons m rest ih =>
    by_cases hA : isAssistant m
    · simp only [List.map_cons, collectAssistantRunX, collectAssistantRun,
        isAssistantX_toX, hA, if_true, ih]
      simp [Message.toX, extractTextParts_toX]
    · simp [collectAssistantRunX, collectAssistantRun, isAssistantX_toX, hA]

/-- On all-string collected values the fallible join returns exactly the
total join. -/
theorem mergeJoinE_map_str (parts : List String) :
    mergeJoinE (parts.map TextVal.str) = Except.ok (mergeJoin parts) := by
  have hfilter : (parts.map TextVal.str).filter TextVal.isTruthy
      = (parts.filter (fun s => !s.isEmpty)).map TextVal.str := by
    induction parts with
    | nil => rfl
    | cons s rest ih =>
      by_cases hs : s.isEmpty
      · simp [List.filter_cons, TextVal.isTruthy, hs, ih]
      · simp [List.filter_cons, TextVal.isTruthy, hs, ih]
  have hall : ((parts.filter (fun s => !s.isEmpty)).map TextVal.str).all TextVal.isStr = true := by
    rw [List.all_eq_true]
    intro v hv
    obtain ⟨s, _, rfl⟩ := List.mem_map.mp hv
    rfl
  simp only [mergeJoinE, hfilter, hall, if_true]
  simp only [mergeJoin]
  rw [List.map_map, show (TextVal.getStr ∘ TextVal.str) = id from rfl, List.map_id]

/-- The lift commutes with the content rewrite of the emitted message. -/
theorem toX_set_content (m : Message) (s : String) :
    Message.toX { m with content := Content.str s }
      = { m.toX with content := ContentX.str s } := rfl

/-- Refinement between the two models: on every lifted restricted transcript
the Except-valued sanitizer succeeds and returns the lift of the restricted
sanitizer's output. -/
theorem mergeE_on_narrow_model (l : List Message) :
    merge_consecutive_assistant_messagesE (l.map Message.toX)
      = Except.ok ((merge_consecutive_assistant_messages l).map Message.toX) := by
  induction l using merge_rec with
  | h0 => rw [merge_nil_eq]; exact mergeE_nil
  | h1 m rest hA ih =>
    rw [merge_cons_other m rest hA]
    simp only [List.map_cons]
    exact mergeE_cons_other_ok m.toX (rest.map Message.toX) _
      (by rw [isAssistantX_toX]; exact hA) ih
  | h2 m rest hA ih =>
    rw [merge_cons_assistant m rest hA]
    simp only [List.map_cons]
    have hjoin : mergeJoinE (extractTextPartsX m.toX.content
        ++ (collectAssistantRunX (rest.map Message.toX)).1)
        = Except.ok (mergeJoin (extractTextParts m.content ++ (collectAssistantRun rest).1)) := by
      rw [collectAssistantRun_toX]
      rw [show m.toX.content = m.content.toX from rfl, extractTextParts_toX]
      rw [← List.map_append]
      exact mergeJoinE_map_str _
    have hdrop : (rest.map Message.toX).drop (collectAssistantRunX (rest.map Message.toX)).2
        = (rest.drop (collectAssistantRun rest).2).map Message.toX := by
      rw [collectAssistantRun_toX]
      exact (List.map_drop Message.toX rest ((collectAssistantRun rest).2)).symm
    have hrec : merge_consecutive_assistant_messagesE
        ((rest.map Message.toX).drop (collectAssistantRunX (rest.map Message.toX)).2)
        = Except.ok ((merge_consecutive_assistant_messages
            (rest.drop (collectAssistantRun rest).2)).map Message.toX) := by
      rw [hdrop]
      exact ih
    have := mergeE_cons_assistant_ok m.toX (rest.map Message.toX)
      (mergeJoin (extractTextParts m.content ++ (collectAssistantRun rest).1))
      ((merge_consecutive_assistant_messages
        (rest.drop (collectAssistantRun rest).2)).map Message.toX)
      (by rw [isAssistantX_toX]; exact hA) hjoin hrec
    rw [this]
    rw [← toX_set_content]
